import Mathlib
set_option maxRecDepth 100000

/-!
Shallow embedding of the scene-detection core of the `modal-clip-video`
repository, together with theorems checking the natural-language
specification against it.

Sources embedded:
* `src/services/scenes.py` — percentile helper, local-maxima peak finder,
  automatic threshold selection, post-detection scene-range filtering.
* `src/modal_video_scenes.py` — fuzzy-boundary refinement
  (`find_precise_boundary`) and dual-signal consensus sub-scene splitting
  (`detect_high_confidence_subscenes`).
* `src/services/ffmpeg_utils.py` — the parameter guard of
  `ffmpeg_export_clip_precise`.

Python floats are modelled as exact rationals (`ℚ`); fallible calls into
external libraries (PySceneDetect, ffprobe) are modelled as explicit
inputs (`Option`/`Except`), since the core treats them as opaque producers
of data.
-/

namespace ClipVideo

/-- Python `int(x)` truncation toward zero on a rational: since a `Rat`
is stored in lowest terms with a positive denominator, toward-zero
integer division of the numerator by the denominator computes it. -/
def intTrunc (q : ℚ) : Int :=
  q.num.tdiv (q.den : Int)

/-- Insert into a sorted list, keeping ascending order (stable). -/
def insertSorted (x : ℚ) : List ℚ → List ℚ
  | [] => [x]
  | y :: ys => if x ≤ y then x :: y :: ys else y :: insertSorted x ys

/-- Python `sorted` on a list of floats: the ascending rearrangement. -/
def pySorted (l : List ℚ) : List ℚ :=
  l.foldr insertSorted []

/-- `_percentile_of_sorted` from `src/services/scenes.py` (lines 53-68):
linear interpolation between adjacent sorted values.  The empty-list
`ValueError` branch is unreachable from its callers and is given the
junk value 0 here. -/
def percentile_of_sorted (sortedValues : List ℚ) (percent : ℚ) : ℚ :=
  let n := sortedValues.length
  if n = 0 then 0
  else if n = 1 then sortedValues.getD 0 0
  else if percent ≤ 0 then sortedValues.getD 0 0
  else if 100 ≤ percent then sortedValues.getD (n - 1) 0
  else
    let rank : ℚ := percent / 100 * ((n : ℚ) - 1)
    let low : Nat := (intTrunc rank).toNat
    let high : Nat := min (low + 1) (n - 1)
    let fraction : ℚ := rank - (low : ℚ)
    sortedValues.getD low 0 * (1 - fraction) + sortedValues.getD high 0 * fraction

/-- `_find_local_maxima` from `src/services/scenes.py` (lines 71-81):
an index `i` (interior) is recorded as a peak when `values[i] > values[i-1]`
and `values[i] ≥ values[i+1]`, with a greedy left-to-right suppression of
peaks closer than `minSep` to the last recorded one (the cursor starts at
`-minSep`, so index differences use `Int`). -/
def find_local_maxima (values : List ℚ) (minSep : Nat) : List Nat :=
  ((List.range' 1 (values.length - 2)).foldl
    (fun (acc : List Nat × Int) (i : Nat) =>
      if (i : Int) - acc.2 < (minSep : Int) then acc
      else if values.getD i 0 > values.getD (i - 1) 0 ∧
              values.getD (i + 1) 0 ≤ values.getD i 0 then
        (acc.1 ++ [i], (i : Int))
      else acc)
    ([], -(minSep : Int))).1

/-- Scene lengths in frames from cut indices: the series boundaries `0` and
`n-1` are implicit cuts around the peak indices
(`src/services/scenes.py` lines 102-104). -/
def scene_cut_lengths (values : List ℚ) (peaks : List Nat) : List Int :=
  let cutIdxs : List Int := 0 :: peaks.map (fun i => (i : Int)) ++ [(values.length : Int) - 1]
  (cutIdxs.zip cutIdxs.tail).map (fun p => p.2 - p.1)

/-- `max(1, int(min_scene_seconds * fps))` from `src/services/scenes.py`
line 88. -/
def min_sep_frames (fps minSceneSeconds : ℚ) : Nat :=
  (max 1 (intTrunc (minSceneSeconds * fps))).toNat

/-- The fixed percentile list of `_choose_threshold_from_content_vals`
(`src/services/scenes.py` line 91). -/
def threshold_percentiles : List ℚ :=
  [80, 85, 90, 92.5, 95, 97, 98, 98.5, 99, 99.2, 99.4, 99.6, 99.8, 99.9]

/-- `sorted({_percentile_of_sorted(sorted_vals, p) for p in percentiles})`
(`src/services/scenes.py` line 92): deduplicated candidate thresholds in
ascending order. -/
def threshold_candidates (sortedVals : List ℚ) : List ℚ :=
  pySorted ((threshold_percentiles.map (percentile_of_sorted sortedVals)).dedup)

/-- The peaks a candidate threshold `t` keeps
(`src/services/scenes.py` lines 98-99): the separation-suppressed local
maxima filtered by `content_vals[idx] >= t`. -/
def trial_peaks (values : List ℚ) (minSep : Nat) (t : ℚ) : List Nat :=
  (find_local_maxima values minSep).filter (fun idx => t ≤ values.getD idx 0)

/-- The trial scene lengths a candidate threshold produces (lines 103-104). -/
def trial_lengths (values : List ℚ) (minSep : Nat) (t : ℚ) : List Int :=
  scene_cut_lengths values (trial_peaks values minSep t)

/-- The per-candidate trial of `_choose_threshold_from_content_vals`
(lines 97-107): `none` when no peak remains or some trial scene length is
below `minSep` (the `continue` branches), otherwise the number of
scenes. -/
def eval_candidate (values : List ℚ) (minSep : Nat) (t : ℚ) : Option Nat :=
  if trial_peaks values minSep t = [] then none
  else if (trial_lengths values minSep t).any (fun l => l < (minSep : Int)) then none
  else some (trial_lengths values minSep t).length

/-- The score Python attaches to a surviving candidate: `(num_scenes, -t)`
(`src/services/scenes.py` line 108). -/
def score_of (values : List ℚ) (minSep : Nat) (t : ℚ) : Nat × ℚ :=
  ((eval_candidate values minSep t).getD 0, -t)

/-- Strict lexicographic order on `(num_scenes, -threshold)` scores, the
order Python's tuple comparison `score > best_score` uses. -/
def lexLt (a b : Nat × ℚ) : Prop :=
  a.1 < b.1 ∨ (a.1 = b.1 ∧ a.2 < b.2)

instance (a b : Nat × ℚ) : Decidable (lexLt a b) := by
  unfold lexLt; infer_instance

/-- One step of the best-candidate loop (lines 97-111): non-surviving
candidates leave the best untouched; a surviving one replaces it exactly
when its `(num_scenes, -t)` score is strictly greater. -/
def best_step (values : List ℚ) (minSep : Nat)
    (best : Option (ℚ × (Nat × ℚ))) (t : ℚ) : Option (ℚ × (Nat × ℚ)) :=
  if (eval_candidate values minSep t).isSome then
    match best with
    | none => some (t, score_of values minSep t)
    | some (bt, bscore) =>
      if lexLt bscore (score_of values minSep t) then some (t, score_of values minSep t)
      else some (bt, bscore)
  else best

/-- The best-candidate loop folded over the candidate list. -/
def best_from (values : List ℚ) (minSep : Nat)
    (acc : Option (ℚ × (Nat × ℚ))) (cands : List ℚ) : Option (ℚ × (Nat × ℚ)) :=
  cands.foldl (best_step values minSep) acc

/-- `_choose_threshold_from_content_vals` from `src/services/scenes.py`
(lines 84-119).  The final `try/except` around the 98th-percentile
fallback cannot throw (the list is non-empty there), so it is the plain
percentile value. -/
def choose_threshold_from_content_vals
    (contentVals : List ℚ) (fps : ℚ) (minSceneSeconds : ℚ) : ℚ :=
  if contentVals = [] then 27
  else
    let minSep := min_sep_frames fps minSceneSeconds
    let sortedVals := pySorted contentVals
    match best_from contentVals minSep none (threshold_candidates sortedVals) with
    | some (bt, _) => bt
    | none => percentile_of_sorted sortedVals 98

/-- The candidate thresholds that survive the minimum-scene-length filter. -/
def survivors (contentVals : List ℚ) (fps minSceneSeconds : ℚ) : List ℚ :=
  (threshold_candidates (pySorted contentVals)).filter
    (fun t => (eval_candidate contentVals (min_sep_frames fps minSceneSeconds) t).isSome)

/-- Number of trial scenes a surviving candidate produces. -/
def num_scenes (contentVals : List ℚ) (fps minSceneSeconds : ℚ) (t : ℚ) : Nat :=
  (eval_candidate contentVals (min_sep_frames fps minSceneSeconds) t).getD 0

/-- Modelled from the spec (§4.2 peak rule), for comparison with the code:
index `i` is a peak iff `score[i] > score[i−1]`, `score[i] ≥ score[i+1]`
and `score[i] ≥ threshold`, suppressed when within `minSep` of the
previously *accepted* peak — i.e. the threshold test participates in the
greedy scan, unlike the code, which suppresses first and filters by the
threshold afterwards. -/
def spec_rule_peaks (values : List ℚ) (threshold : ℚ) (minSep : Nat) : List Nat :=
  ((List.range' 1 (values.length - 2)).foldl
    (fun (acc : List Nat × Option Nat) (i : Nat) =>
      let suppressed : Bool :=
        match acc.2 with
        | none => false
        | some last => decide ((i : Int) - (last : Int) < (minSep : Int))
      if suppressed then acc
      else if values.getD i 0 > values.getD (i - 1) 0 ∧
              values.getD (i + 1) 0 ≤ values.getD i 0 ∧
              threshold ≤ values.getD i 0 then
        (acc.1 ++ [i], some i)
      else acc)
    ([], none)).1

/-- Scene lengths produced by segmenting with the spec's §4.2 rule. -/
def spec_scene_lengths (values : List ℚ) (threshold : ℚ) (minSep : Nat) : List Int :=
  scene_cut_lengths values (spec_rule_peaks values threshold minSep)

/-! ### Boundary refinement (`find_precise_boundary`, `src/modal_video_scenes.py`) -/

/-- A candidate cut produced by the external detector: its timestamp in
seconds and the `content_val` metric at its frame (`none` when the stats
manager has no value there). -/
structure Cut where
  seconds : ℚ
  metric : Option ℚ
  deriving DecidableEq, Repr

/-- `SEARCH_RADIUS = 1.5` (`src/modal_video_scenes.py` line 85). -/
def SEARCH_RADIUS : ℚ := 3 / 2

/-- `get_fitness_score` (`src/modal_video_scenes.py` lines 103-112):
`cut_strength * max(0, 1 - distance / SEARCH_RADIUS) ** 2`, with the
strength taken as 0 when the metric is missing. -/
def fitness (fuzzyTime : ℚ) (c : Cut) : ℚ :=
  let cutStrength := c.metric.getD 0
  let distance := |c.seconds - fuzzyTime|
  let proximityMultiplier := max 0 (1 - distance / SEARCH_RADIUS)
  cutStrength * proximityMultiplier ^ 2

/-- Python's `max(xs, key=key)` over a non-empty list: keeps the current
best and replaces it only on a strictly greater key, so the first maximal
element wins ties. -/
def pyMaxFold (key : Cut → ℚ) (x : Cut) (xs : List Cut) : Cut :=
  xs.foldl (fun b y => if key b < key y then y else b) x

/-- `cuts = [scene[0] for scene in scene_list[1:]]`
(`src/modal_video_scenes.py` line 98): the start times of all scenes after
the first are the candidate cuts. -/
def cutsFromScenes (sceneList : List (Cut × Cut)) : List Cut :=
  (sceneList.drop 1).map Prod.fst

/-- The pure core of `find_precise_boundary`
(`src/modal_video_scenes.py` lines 93-117): empty scene list or empty cut
list falls back to the fuzzy time, otherwise the fitness-maximal cut
(Python `max`) is returned. -/
def find_precise_boundary_core (fuzzyTime : ℚ) (sceneList : List (Cut × Cut)) : ℚ :=
  match cutsFromScenes sceneList with
  | [] => fuzzyTime
  | c :: cs => (pyMaxFold (fitness fuzzyTime) c cs).seconds

/-- `find_precise_boundary` (`src/modal_video_scenes.py` lines 75-121):
the whole body is wrapped in `try/except`, so a failing detection pass
(modelled as `Except.error`) yields the fuzzy input unchanged. -/
def find_precise_boundary (fuzzyTime : ℚ) (detection : Except Unit (List (Cut × Cut))) : ℚ :=
  match detection with
  | Except.error _ => fuzzyTime
  | Except.ok sceneList => find_precise_boundary_core fuzzyTime sceneList

/-! ### Consensus sub-scenes (`detect_high_confidence_subscenes`) -/

/-- A raw scene boundary produced by the dual-detector pass: its timestamp
and, when `stats_manager.metrics_exist` holds at its frame, the pair of
`adaptive_ratio`/`hash_dist` metric values (each possibly `None`). -/
structure SubCut where
  seconds : ℚ
  metrics : Option (Option ℚ × Option ℚ)
  deriving DecidableEq, Repr

/-- `ADAPTIVE_THRESHOLD = 7.0` (`src/modal_video_scenes.py` line 124). -/
def ADAPTIVE_THRESHOLD : ℚ := 7

/-- `SCREAMER_ADAPTIVE_THRESHOLD = 13.0` (line 125). -/
def SCREAMER_ADAPTIVE_THRESHOLD : ℚ := 13

/-- `HASH_THRESHOLD = 0.4` (line 126). -/
def HASH_THRESHOLD : ℚ := 2 / 5

/-- The consensus check of `detect_high_confidence_subscenes`
(lines 154-173): missing metrics reject the cut; otherwise `None` values
are read as 0 and the cut is accepted iff
`(adaptive ≥ 7 ∧ hash ≥ 0.4) ∨ adaptive ≥ 13`. -/
def cutAccepted (c : SubCut) : Bool :=
  match c.metrics with
  | none => false
  | some (ma, mh) =>
    let adaptiveVal := ma.getD 0
    let hashVal := mh.getD 0
    decide ((ADAPTIVE_THRESHOLD ≤ adaptiveVal ∧ HASH_THRESHOLD ≤ hashVal) ∨
            SCREAMER_ADAPTIVE_THRESHOLD ≤ adaptiveVal)

/-- One iteration of the accumulation loop of
`detect_high_confidence_subscenes` (lines 146-171): an accepted cut
closes the range that started at the running `current_scene_start` and
opens the next one. -/
def hcs_step (acc : List (ℚ × ℚ) × ℚ) (c : SubCut) : List (ℚ × ℚ) × ℚ :=
  if cutAccepted c then (acc.1 ++ [(acc.2, c.seconds)], c.seconds) else acc

/-- The accumulation loop of `detect_high_confidence_subscenes`
(lines 143-173) folded over the candidate cuts. -/
def hcsFold (cuts : List SubCut) (firstStart : ℚ) : List (ℚ × ℚ) × ℚ :=
  cuts.foldl hcs_step ([], firstStart)

/-- `detect_high_confidence_subscenes` (`src/modal_video_scenes.py`
lines 123-186), with the detector's raw scene list and the search-window
end time as inputs: at most one raw scene returns empty; otherwise the
cuts (ends of all raw scenes but the last) run through the consensus
loop, an empty acceptance set returns empty, and a trailing range up to
`endTime` is appended otherwise. -/
def detect_high_confidence_subscenes
    (rawScenes : List (SubCut × SubCut)) (endTime : ℚ) : List (ℚ × ℚ) :=
  match rawScenes with
  | [] => []
  | [_] => []
  | s0 :: s1 :: rest =>
    let cuts := ((s0 :: s1 :: rest).dropLast).map Prod.snd
    let res := hcsFold cuts s0.1.seconds
    if res.1 = [] then [] else res.1 ++ [(res.2, endTime)]

/-- Consecutive ranges between a start point and a list of cut times:
`consecRanges s [t₁, t₂, …] = [(s, t₁), (t₁, t₂), …]`. -/
def consecRanges (start : ℚ) : List ℚ → List (ℚ × ℚ)
  | [] => []
  | t :: ts => (start, t) :: consecRanges t ts

/-! ### Whole-video scene ranges (`detect_scenes_seconds`) -/

/-- The pure part of `detect_scenes_seconds` (`src/services/scenes.py`
lines 196-217): the detector's scene list (pairs of seconds) and the
probed duration (`none` when the probe raises) are inputs.  An empty
detection, or a detection in which every range is shorter than
`max(0, min_scene_seconds)`, yields the single fallback range
`(0, duration)` with duration 0 when unavailable. -/
def detect_scenes_seconds
    (sceneList : List (ℚ × ℚ)) (duration : Option ℚ) (minSceneSeconds : ℚ) : List (ℚ × ℚ) :=
  if sceneList = [] then [(0, duration.getD 0)]
  else
    let ranges := sceneList.filter (fun r => max 0 minSceneSeconds ≤ r.2 - r.1)
    if ranges = [] then [(0, duration.getD 0)] else ranges

/-- `contiguousFrom s rs e` holds when the ranges `rs` chain exactly from
`s` to `e`: each range starts where the previous one ended, with no gap
and no overlap. -/
def contiguousFrom : ℚ → List (ℚ × ℚ) → ℚ → Bool
  | s, [], e => s == e
  | s, r :: rs, e => r.1 == s && contiguousFrom r.2 rs e

/-! ### Parameter handling (`auto_choose_threshold_for_video`,
`ffmpeg_export_clip_precise`) -/

/-- The frame-rate handling of `auto_choose_threshold_for_video`
(`src/services/scenes.py` lines 154-157): a missing or non-positive
probed rate is silently replaced by 30.0. -/
def resolve_fps (probed : Option ℚ) : ℚ :=
  match probed with
  | none => 30
  | some f => if f ≤ 0 then 30 else f

/-- `auto_choose_threshold_for_video` (`src/services/scenes.py`
lines 149-183) restricted to its pure tail: the probed fps is resolved
and threshold selection runs on the extracted content values. -/
def auto_choose_threshold_for_video
    (probedFps : Option ℚ) (contentVals : List ℚ) (minSceneSeconds : ℚ) : ℚ :=
  choose_threshold_from_content_vals contentVals (resolve_fps probedFps) minSceneSeconds

/-- The parameter guard of `ffmpeg_export_clip_precise`
(`src/services/ffmpeg_utils.py` lines 223-224): raises `ValueError` when
`end_seconds <= start_seconds`. -/
def ffmpeg_export_clip_precise_guard (startSeconds endSeconds : ℚ) : Except String Unit :=
  if endSeconds ≤ startSeconds then
    Except.error "end_seconds must be greater than start_seconds"
  else Except.ok ()

/-! ### Helper lemmas: the threshold-selection fold -/

lemma lexLt_irrefl (a : Nat × ℚ) : ¬ lexLt a a := by
  unfold lexLt; simp

lemma lexLt_trans {a b c : Nat × ℚ} (h1 : lexLt a b) (h2 : lexLt b c) : lexLt a c := by
  unfold lexLt at h1 h2 ⊢
  rcases h1 with h1 | ⟨e1, l1⟩ <;> rcases h2 with h2 | ⟨e2, l2⟩
  · exact Or.inl (h1.trans h2)
  · exact Or.inl (e2 ▸ h1)
  · exact Or.inl (e1 ▸ h2)
  · exact Or.inr ⟨e1.trans e2, l1.trans l2⟩

lemma lexLt_asymm {a b : Nat × ℚ} (h : lexLt a b) : ¬ lexLt b a := by
  intro h2
  exact lexLt_irrefl a (lexLt_trans h h2)

/-- A well-formed accumulator of the best-candidate loop: when it holds a
pair, the recorded score is that candidate's score and the candidate
survived. -/
def wfAcc (values : List ℚ) (minSep : Nat) (acc : Option (ℚ × (Nat × ℚ))) : Prop :=
  ∀ p, acc = some p → p.2 = score_of values minSep p.1 ∧
    (eval_candidate values minSep p.1).isSome = true

lemma wfAcc_none (values : List ℚ) (minSep : Nat) : wfAcc values minSep none := by
  intro p hp; cases hp

lemma best_step_wf {values : List ℚ} {minSep : Nat} {acc : Option (ℚ × (Nat × ℚ))} {t : ℚ}
    (hwf : wfAcc values minSep acc) : wfAcc values minSep (best_step values minSep acc t) := by
  intro p hp
  unfold best_step at hp
  by_cases he : (eval_candidate values minSep t).isSome
  · rw [if_pos he] at hp
    cases acc with
    | none =>
      cases hp
      exact ⟨rfl, he⟩
    | some q =>
      obtain ⟨bt, bscore⟩ := q
      dsimp only at hp
      by_cases hlt : lexLt bscore (score_of values minSep t)
      · rw [if_pos hlt] at hp
        cases hp
        exact ⟨rfl, he⟩
      · rw [if_neg hlt] at hp
        cases hp
        exact hwf _ rfl
  · rw [if_neg he] at hp
    exact hwf _ hp

lemma best_from_wf {values : List ℚ} {minSep : Nat} (cands : List ℚ) :
    ∀ {acc : Option (ℚ × (Nat × ℚ))}, wfAcc values minSep acc →
      wfAcc values minSep (best_from values minSep acc cands) := by
  induction cands with
  | nil => intro acc hwf; exact hwf
  | cons t ts ih =>
    intro acc hwf
    exact ih (best_step_wf hwf)

lemma best_step_acc_none {values : List ℚ} {minSep : Nat} {acc : Option (ℚ × (Nat × ℚ))} {t : ℚ}
    (h : best_step values minSep acc t = none) :
    acc = none ∧ (eval_candidate values minSep t).isSome = false := by
  unfold best_step at h
  by_cases he : (eval_candidate values minSep t).isSome
  · rw [if_pos he] at h
    cases acc with
    | none => cases h
    | some q =>
      obtain ⟨bt, bscore⟩ := q
      dsimp only at h
      by_cases hlt : lexLt bscore (score_of values minSep t)
      · rw [if_pos hlt] at h; cases h
      · rw [if_neg hlt] at h; cases h
  · rw [if_neg he] at h
    exact ⟨h, by simpa using he⟩

lemma best_from_eq_none {values : List ℚ} {minSep : Nat} (cands : List ℚ) :
    ∀ {acc : Option (ℚ × (Nat × ℚ))}, best_from values minSep acc cands = none →
      acc = none ∧ ∀ t ∈ cands, (eval_candidate values minSep t).isSome = false := by
  induction cands with
  | nil =>
    intro acc h
    exact ⟨h, by intro t ht; cases ht⟩
  | cons c cs ih =>
    intro acc h
    obtain ⟨hstep, hrest⟩ := ih h
    obtain ⟨hacc, hc⟩ := best_step_acc_none hstep
    refine ⟨hacc, ?_⟩
    intro t ht
    rcases List.mem_cons.mp ht with rfl | ht'
    · exact hc
    · exact hrest t ht'

lemma best_step_mem {values : List ℚ} {minSep : Nat} {acc : Option (ℚ × (Nat × ℚ))} {t : ℚ}
    {p : ℚ × (Nat × ℚ)} (h : best_step values minSep acc t = some p) :
    acc = some p ∨ p.1 = t := by
  unfold best_step at h
  by_cases he : (eval_candidate values minSep t).isSome
  · rw [if_pos he] at h
    cases acc with
    | none => cases h; exact Or.inr rfl
    | some q =>
      obtain ⟨bt, bscore⟩ := q
      dsimp only at h
      by_cases hlt : lexLt bscore (score_of values minSep t)
      · rw [if_pos hlt] at h; cases h; exact Or.inr rfl
      · rw [if_neg hlt] at h; cases h; exact Or.inl rfl
  · rw [if_neg he] at h
    exact Or.inl h

lemma best_from_mem {values : List ℚ} {minSep : Nat} (cands : List ℚ) :
    ∀ {acc : Option (ℚ × (Nat × ℚ))} {p : ℚ × (Nat × ℚ)},
      best_from values minSep acc cands = some p →
      acc = some p ∨ p.1 ∈ cands := by
  induction cands with
  | nil => intro acc p h; exact Or.inl h
  | cons c cs ih =>
    intro acc p h
    rcases ih h with hstep | hmem
    · rcases best_step_mem hstep with hacc | hc
      · exact Or.inl hacc
      · exact Or.inr (by rw [hc]; exact List.mem_cons_self c cs)
    · exact Or.inr (List.mem_cons_of_mem c hmem)

lemma best_step_not_lt {values : List ℚ} {minSep : Nat} {acc : Option (ℚ × (Nat × ℚ))} {t : ℚ}
    {s : Nat × ℚ} (hacc : ∀ q, acc = some q → ¬ lexLt q.2 s) :
    ∀ p, best_step values minSep acc t = some p →
      (¬ lexLt p.2 s) ∨ (acc = none ∧ p.2 = score_of values minSep t) := by
  intro p hp
  unfold best_step at hp
  by_cases he : (eval_candidate values minSep t).isSome
  · rw [if_pos he] at hp
    cases acc with
    | none => cases hp; exact Or.inr ⟨rfl, rfl⟩
    | some q =>
      obtain ⟨bt, bscore⟩ := q
      dsimp only at hp
      have hb : ¬ lexLt (bt, bscore).2 s := hacc _ rfl
      by_cases hlt : lexLt bscore (score_of values minSep t)
      · rw [if_pos hlt] at hp
        cases hp
        refine Or.inl ?_
        intro hcon
        exact hb (lexLt_trans hlt hcon)
      · rw [if_neg hlt] at hp
        cases hp
        exact Or.inl hb
  · rw [if_neg he] at hp
    exact Or.inl (hacc _ hp)

lemma best_step_some_of_acc {values : List ℚ} {minSep : Nat} {acc : Option (ℚ × (Nat × ℚ))}
    {t : ℚ} (h : acc ≠ none) : best_step values minSep acc t ≠ none := by
  intro hcon
  exact h (best_step_acc_none hcon).1

lemma best_from_not_lt {values : List ℚ} {minSep : Nat} (cands : List ℚ) :
    ∀ {acc : Option (ℚ × (Nat × ℚ))} {s : Nat × ℚ},
      (∀ q, acc = some q → ¬ lexLt q.2 s) → acc ≠ none →
      ∀ p, best_from values minSep acc cands = some p → ¬ lexLt p.2 s := by
  induction cands with
  | nil =>
    intro acc s hacc hne p hp
    exact hacc p hp
  | cons c cs ih =>
    intro acc s hacc hne p hp
    have hstep : ∀ q, best_step values minSep acc c = some q → ¬ lexLt q.2 s := by
      intro q hq
      rcases best_step_not_lt hacc q hq with h | ⟨haccn, _⟩
      · exact h
      · exact absurd haccn hne
    exact ih hstep (best_step_some_of_acc hne) p hp

lemma best_step_dominates {values : List ℚ} {minSep : Nat} {acc : Option (ℚ × (Nat × ℚ))}
    {t : ℚ} (he : (eval_candidate values minSep t).isSome = true) :
    ∀ p, best_step values minSep acc t = some p → ¬ lexLt p.2 (score_of values minSep t) := by
  intro p hp
  unfold best_step at hp
  rw [if_pos he] at hp
  cases acc with
  | none => cases hp; exact lexLt_irrefl _
  | some q =>
    obtain ⟨bt, bscore⟩ := q
    dsimp only at hp
    by_cases hlt : lexLt bscore (score_of values minSep t)
    · rw [if_pos hlt] at hp; cases hp; exact lexLt_irrefl _
    · rw [if_neg hlt] at hp; cases hp; exact hlt

lemma best_from_dominates {values : List ℚ} {minSep : Nat} (cands : List ℚ) :
    ∀ {acc : Option (ℚ × (Nat × ℚ))} {t : ℚ}, t ∈ cands →
      (eval_candidate values minSep t).isSome = true →
      ∀ p, best_from values minSep acc cands = some p → ¬ lexLt p.2 (score_of values minSep t) := by
  induction cands with
  | nil => intro acc t ht; cases ht
  | cons c cs ih =>
    intro acc t ht he p hp
    rcases List.mem_cons.mp ht with rfl | ht'
    · have hstep : ∀ q, best_step values minSep acc t = some q →
          ¬ lexLt q.2 (score_of values minSep t) := best_step_dominates he
      have hne : best_step values minSep acc t ≠ none := by
        intro hcon
        have := (best_step_acc_none hcon).2
        rw [he] at this
        cases this
      exact best_from_not_lt cs hstep hne p hp
    · exact ih ht' he p hp

lemma survivors_mem {vals : List ℚ} {fps ms t : ℚ} (ht : t ∈ survivors vals fps ms) :
    t ∈ threshold_candidates (pySorted vals) ∧
    (eval_candidate vals (min_sep_frames fps ms) t).isSome = true := by
  have h := List.mem_filter.mp ht
  exact ⟨h.1, by simpa using h.2⟩

lemma best_from_choose {vals : List ℚ} {fps ms : ℚ} (hne : vals ≠ [])
    {p : ℚ × (Nat × ℚ)}
    (hp : best_from vals (min_sep_frames fps ms) none
      (threshold_candidates (pySorted vals)) = some p) :
    choose_threshold_from_content_vals vals fps ms = p.1 := by
  obtain ⟨bt, bs⟩ := p
  unfold choose_threshold_from_content_vals
  rw [if_neg hne]
  dsimp only
  rw [hp]

/-- Shared core of the C1/C7 analyses: whenever the best-candidate fold
returns a pair (the non-fallback path), the chosen threshold is a
surviving candidate and its score dominates every survivor's score. -/
lemma choose_threshold_non_fallback {vals : List ℚ} {fps ms : ℚ} (hne : vals ≠ [])
    {p : ℚ × (Nat × ℚ)}
    (hp : best_from vals (min_sep_frames fps ms) none
      (threshold_candidates (pySorted vals)) = some p) :
    choose_threshold_from_content_vals vals fps ms ∈ survivors vals fps ms ∧
    ∀ t ∈ survivors vals fps ms,
      ¬ lexLt p.2 (score_of vals (min_sep_frames fps ms) t) := by
  have hwf := best_from_wf
    (threshold_candidates (pySorted vals)) (wfAcc_none vals (min_sep_frames fps ms)) p hp
  have hmem : p.1 ∈ threshold_candidates (pySorted vals) := by
    rcases best_from_mem _ hp with h | h
    · cases h
    · exact h
  have hchoose := best_from_choose hne hp
  constructor
  · rw [hchoose]
    exact List.mem_filter.mpr ⟨hmem, by simpa using hwf.2⟩
  · intro t ht
    exact best_from_dominates _ (survivors_mem ht).1 (survivors_mem ht).2 p hp

/-- C1.  For every non-empty list of change scores and every
`minSceneSeconds ≥ 0`, whenever some candidate threshold survives the
minimum-scene-length filter, `_choose_threshold_from_content_vals`
returns a surviving candidate that maximizes the `(numberOfScenes, -t)`
score lexicographically: every other survivor either produces strictly
fewer scenes, or produces the same number of scenes and is at least as
large a threshold. -/
theorem choose_threshold_lex_optimal (vals : List ℚ) (fps ms : ℚ)
    (hne : vals ≠ []) (_hms : 0 ≤ ms) (hsurv : survivors vals fps ms ≠ []) :
    choose_threshold_from_content_vals vals fps ms ∈ survivors vals fps ms ∧
    ∀ t ∈ survivors vals fps ms,
      num_scenes vals fps ms t <
          num_scenes vals fps ms (choose_threshold_from_content_vals vals fps ms) ∨
        (num_scenes vals fps ms t =
            num_scenes vals fps ms (choose_threshold_from_content_vals vals fps ms) ∧
          choose_threshold_from_content_vals vals fps ms ≤ t) := by
  obtain ⟨t0, ht0⟩ := List.exists_mem_of_ne_nil _ hsurv
  have hbf : best_from vals (min_sep_frames fps ms) none
      (threshold_candidates (pySorted vals)) ≠ none := by
    intro hnone
    obtain ⟨-, hall⟩ := best_from_eq_none _ hnone
    have h1 := hall t0 (survivors_mem ht0).1
    have h2 := (survivors_mem ht0).2
    rw [h1] at h2
    cases h2
  obtain ⟨p, hp⟩ : ∃ p, best_from vals (min_sep_frames fps ms) none
      (threshold_candidates (pySorted vals)) = some p := by
    cases h : best_from vals (min_sep_frames fps ms) none
        (threshold_candidates (pySorted vals)) with
    | none => exact absurd h hbf
    | some p => exact ⟨p, rfl⟩
  obtain ⟨hmem, hdom⟩ := choose_threshold_non_fallback hne hp
  have hwf := best_from_wf
    (threshold_candidates (pySorted vals)) (wfAcc_none vals (min_sep_frames fps ms)) p hp
  have hchoose := best_from_choose hne hp
  refine ⟨hmem, ?_⟩
  intro t ht
  have hnot := hdom t ht
  rw [hwf.1] at hnot
  unfold lexLt at hnot
  push_neg at hnot
  unfold score_of at hnot
  have hle : num_scenes vals fps ms t ≤ num_scenes vals fps ms p.1 := by
    by_contra hcon
    exact absurd (by simpa [num_scenes] using Nat.lt_of_not_le hcon) (by simpa using hnot.1)
  rw [hchoose]
  rcases Nat.lt_or_ge (num_scenes vals fps ms t) (num_scenes vals fps ms p.1) with hlt | hge
  · exact Or.inl hlt
  · have heq : num_scenes vals fps ms t = num_scenes vals fps ms p.1 :=
      Nat.le_antisymm hle hge
    refine Or.inr ⟨heq, ?_⟩
    have h2 := hnot.2 (by simpa [num_scenes] using heq.symm)
    linarith [show -t ≤ -p.1 from h2]

/-- Witness for C1 at a concrete series: `vals = [0,0,0,9,0,0,0,0,5,0,20,0]`,
`fps = 30`, `minSceneSeconds = 1/10` has surviving candidates and the
returned threshold (4) is one of them. -/
theorem choose_threshold_lex_optimal_witness :
    choose_threshold_from_content_vals [0, 0, 0, 9, 0, 0, 0, 0, 5, 0, 20, 0] 30 (1/10) ∈
      survivors [0, 0, 0, 9, 0, 0, 0, 0, 5, 0, 20, 0] 30 (1/10) :=
  (choose_threshold_lex_optimal [0, 0, 0, 9, 0, 0, 0, 0, 5, 0, 20, 0] 30 (1/10)
    (by simp) (by norm_num)
    (of_decide_eq_true (by with_unfolding_all rfl))).1

/-- C7 (amended).  Every candidate threshold the selector accepts as a
survivor has all trial scene lengths at least `minSeparationFrames`, and
a non-fallback return value is itself such a survivor, so the selector's
own trial segmentation at the returned threshold also satisfies the
bound.  (Re-segmenting with the spec's §4.2 rule — threshold applied
during the greedy scan — does not preserve the bound; see the
counterexample.) -/
theorem survivor_trial_lengths_ge_min (vals : List ℚ) (fps ms : ℚ) :
    (∀ t ∈ survivors vals fps ms,
      ∀ l ∈ trial_lengths vals (min_sep_frames fps ms) t,
        ((min_sep_frames fps ms : Nat) : Int) ≤ l) ∧
    (vals ≠ [] →
      ∀ p, best_from vals (min_sep_frames fps ms) none
          (threshold_candidates (pySorted vals)) = some p →
        choose_threshold_from_content_vals vals fps ms ∈ survivors vals fps ms) := by
  constructor
  · intro t ht l hl
    have he := (survivors_mem ht).2
    unfold eval_candidate at he
    split at he
    · cases he
    · split at he
      · cases he
      · rename_i h1 h2
        have hfalse : (trial_lengths vals (min_sep_frames fps ms) t).any
            (fun l => decide (l < ((min_sep_frames fps ms : Nat) : Int))) = false := by
          simpa using h2
        have hnotlt := List.any_eq_false.mp hfalse l hl
        simp only [decide_eq_true_eq] at hnotlt
        exact Int.not_lt.mp hnotlt
  · intro hne p hp
    exact (choose_threshold_non_fallback hne hp).1

/-- Witness for C7's amended statement: on the series
`[1,5,0,9,20,0,0,0,5,1,9,0,20]` with `minSeparationFrames = 3`, the
surviving candidate 9 has trial length 8 ≥ 3, and the fold's non-fallback
result puts the returned threshold among the survivors. -/
theorem survivor_trial_lengths_ge_min_witness :
    ((min_sep_frames 30 (1/10) : Nat) : Int) ≤ 8 ∧
    choose_threshold_from_content_vals [1, 5, 0, 9, 20, 0, 0, 0, 5, 1, 9, 0, 20] 30 (1/10) ∈
      survivors [1, 5, 0, 9, 20, 0, 0, 0, 5, 1, 9, 0, 20] 30 (1/10) :=
  ⟨(survivor_trial_lengths_ge_min [1, 5, 0, 9, 20, 0, 0, 0, 5, 1, 9, 0, 20] 30 (1/10)).1
      9 (of_decide_eq_true (by with_unfolding_all rfl))
      8 (of_decide_eq_true (by with_unfolding_all rfl)),
   (survivor_trial_lengths_ge_min [1, 5, 0, 9, 20, 0, 0, 0, 5, 1, 9, 0, 20] 30 (1/10)).2
      (by simp) (9, 2, -9) (by with_unfolding_all rfl)⟩

/-- Counterexample to C7 as stated: on `[1,5,0,9,20,0,0,0,5,1,9,0,20]`
with `fps = 30`, `minSceneSeconds = 1/10` (so `minSeparationFrames = 3`),
the selector returns the non-fallback threshold 9 (a survivor), yet
segmenting the same series at threshold 9 with the §4.2 rule yields
scene lengths `[4, 6, 2]`, and the final scene of length 2 is shorter
than 3. -/
theorem spec_rule_resegmentation_counterexample :
    choose_threshold_from_content_vals [1, 5, 0, 9, 20, 0, 0, 0, 5, 1, 9, 0, 20] 30 (1/10) = 9 ∧
    (9 : ℚ) ∈ survivors [1, 5, 0, 9, 20, 0, 0, 0, 5, 1, 9, 0, 20] 30 (1/10) ∧
    min_sep_frames 30 (1/10) = 3 ∧
    spec_scene_lengths [1, 5, 0, 9, 20, 0, 0, 0, 5, 1, 9, 0, 20] 9 3 = [4, 6, 2] ∧
    ¬ ((3 : Int) ≤ 2) :=
  ⟨by with_unfolding_all rfl, of_decide_eq_true (by with_unfolding_all rfl),
   by with_unfolding_all rfl, by with_unfolding_all rfl, by norm_num⟩

/-! ### Helper lemmas: Python `max` over candidate cuts -/

/-- Python's `max` keeps the first element attaining the maximal key: the
input splits as `l₁ ++ result :: l₂` where everything in `l₁` has a
strictly smaller key and nothing beats the result. -/
lemma pyMaxFold_split (key : Cut → ℚ) (xs : List Cut) : ∀ x : Cut,
    ∃ l₁ l₂, x :: xs = l₁ ++ pyMaxFold key x xs :: l₂ ∧
      (∀ y ∈ x :: xs, key y ≤ key (pyMaxFold key x xs)) ∧
      (∀ y ∈ l₁, key y < key (pyMaxFold key x xs)) := by
  induction xs with
  | nil =>
    intro x
    refine ⟨[], [], rfl, ?_, by simp⟩
    intro y hy
    rcases List.mem_cons.mp hy with rfl | hy'
    · exact le_refl _
    · cases hy'
  | cons z zs ih =>
    intro x
    have hfold : pyMaxFold key x (z :: zs) =
        pyMaxFold key (if key x < key z then z else x) zs := rfl
    by_cases hlt : key x < key z
    · obtain ⟨l₁, l₂, hsplit, hbound, hstrict⟩ := ih z
      rw [hfold, if_pos hlt]
      refine ⟨x :: l₁, l₂, ?_, ?_, ?_⟩
      · rw [List.cons_append, ← hsplit]
      · intro y hy
        rcases List.mem_cons.mp hy with rfl | hy'
        · exact le_trans (le_of_lt hlt) (hbound z (List.mem_cons_self z zs))
        · exact hbound y hy'
      · intro y hy
        rcases List.mem_cons.mp hy with rfl | hy'
        · exact lt_of_lt_of_le hlt (hbound z (List.mem_cons_self z zs))
        · exact hstrict y hy'
    · obtain ⟨l₁, l₂, hsplit, hbound, hstrict⟩ := ih x
      rw [hfold, if_neg hlt]
      have hzx : key z ≤ key x := le_of_not_lt hlt
      cases l₁ with
      | nil =>
        simp only [List.nil_append] at hsplit
        injection hsplit with h1 h2
        refine ⟨[], z :: zs, ?_, ?_, by simp⟩
        · rw [List.nil_append, ← h1]
        · intro y hy
          rcases List.mem_cons.mp hy with rfl | hy'
          · exact hbound y (List.mem_cons_self _ _)
          rcases List.mem_cons.mp hy' with rfl | hy''
          · exact le_trans hzx (hbound x (List.mem_cons_self _ _))
          · exact hbound y (List.mem_cons_of_mem _ hy'')
      | cons a l₁' =>
        rw [List.cons_append] at hsplit
        injection hsplit with h1 h2
        refine ⟨x :: z :: l₁', l₂, ?_, ?_, ?_⟩
        · rw [List.cons_append, List.cons_append, ← h2]
        · intro y hy
          rcases List.mem_cons.mp hy with rfl | hy'
          · exact hbound y (List.mem_cons_self _ _)
          rcases List.mem_cons.mp hy' with rfl | hy''
          · exact le_trans hzx (hbound x (List.mem_cons_self _ _))
          · exact hbound y (List.mem_cons_of_mem _ hy'')
        · intro y hy
          have hx_lt : key x < key (pyMaxFold key x zs) := by
            have := hstrict a (List.mem_cons_self _ _)
            rwa [← h1] at this
          rcases List.mem_cons.mp hy with rfl | hy'
          · exact hx_lt
          rcases List.mem_cons.mp hy' with rfl | hy''
          · exact lt_of_le_of_lt hzx hx_lt
          · exact hstrict y (List.mem_cons_of_mem _ hy'')

/-- Either there are no candidate cuts and the refiner falls back to the
fuzzy time, or it returns the timestamp of one of the candidate cuts. -/
lemma find_precise_core_cases (fuzzyTime : ℚ) (sceneList : List (Cut × Cut)) :
    (cutsFromScenes sceneList = [] ∧
      find_precise_boundary_core fuzzyTime sceneList = fuzzyTime) ∨
    ∃ c ∈ cutsFromScenes sceneList,
      find_precise_boundary_core fuzzyTime sceneList = c.seconds := by
  unfold find_precise_boundary_core
  cases hcuts : cutsFromScenes sceneList with
  | nil => exact Or.inl ⟨rfl, rfl⟩
  | cons c cs =>
    refine Or.inr ⟨pyMaxFold (fitness fuzzyTime) c cs, ?_, rfl⟩
    obtain ⟨l₁, l₂, hsplit, -, -⟩ := pyMaxFold_split (fitness fuzzyTime) cs c
    rw [hsplit]
    exact List.mem_append_right l₁ (List.mem_cons_self _ _)

/-- C2 (amended).  When the candidate cuts in the search window are
non-empty (listed in the detector's ascending time order),
`find_precise_boundary` returns the timestamp of a candidate of maximal
fitness `changeScore * max(0, 1 - |t - approx| / radius)²`; among
candidates attaining the maximal fitness the one *earliest in time* is
returned (not the one of smallest distance to the fuzzy time).  In
particular, with `approximateSeconds = 10`, candidates `t = 10.2` with
score 8 and `t = 8.9` with score 20, the refiner picks `t = 10.2`, whose
fitness is `1352/225`. -/
theorem find_precise_boundary_argmax (fuzzyTime : ℚ) (sceneList : List (Cut × Cut))
    (hne : cutsFromScenes sceneList ≠ [])
    (hsort : (cutsFromScenes sceneList).Pairwise (fun a b => a.seconds ≤ b.seconds)) :
    (∃ c ∈ cutsFromScenes sceneList,
      find_precise_boundary_core fuzzyTime sceneList = c.seconds ∧
      (∀ d ∈ cutsFromScenes sceneList, fitness fuzzyTime d ≤ fitness fuzzyTime c) ∧
      (∀ d ∈ cutsFromScenes sceneList,
        fitness fuzzyTime d = fitness fuzzyTime c → c.seconds ≤ d.seconds)) ∧
    find_precise_boundary_core 10
      [(⟨0, none⟩, ⟨0, none⟩), (⟨89/10, some 20⟩, ⟨0, none⟩),
       (⟨51/5, some 8⟩, ⟨0, none⟩)] = 51/5 ∧
    fitness 10 ⟨51/5, some 8⟩ = 1352/225 := by
  refine ⟨?_, by with_unfolding_all rfl, by with_unfolding_all rfl⟩
  unfold find_precise_boundary_core
  cases hcuts : cutsFromScenes sceneList with
  | nil => exact absurd hcuts hne
  | cons c cs =>
    obtain ⟨l₁, l₂, hsplit, hbound, hstrict⟩ := pyMaxFold_split (fitness fuzzyTime) cs c
    refine ⟨pyMaxFold (fitness fuzzyTime) c cs, ?_, rfl, ?_, ?_⟩
    · rw [hsplit]
      exact List.mem_append_right l₁ (List.mem_cons_self _ _)
    · intro d hd
      exact hbound d hd
    · intro d hd hfit
      rw [hsplit] at hd
      rcases List.mem_append.mp hd with hd1 | hd2
      · exact absurd hfit (ne_of_lt (hstrict d hd1))
      rcases List.mem_cons.mp hd2 with rfl | hd3
      · exact le_refl _
      · have hpair := hsort
        rw [hcuts, hsplit] at hpair
        have h2 := (List.pairwise_append.mp hpair).2.1
        exact (List.pairwise_cons.mp h2).1 d hd3

/-- Witness for C2's amended statement at the concrete Scenario-3 input. -/
theorem find_precise_boundary_argmax_witness :
    find_precise_boundary_core 10
      [(⟨0, none⟩, ⟨0, none⟩), (⟨89/10, some 20⟩, ⟨0, none⟩),
       (⟨51/5, some 8⟩, ⟨0, none⟩)] = 51/5 :=
  (find_precise_boundary_argmax 10
    [(⟨0, none⟩, ⟨0, none⟩), (⟨89/10, some 20⟩, ⟨0, none⟩),
     (⟨51/5, some 8⟩, ⟨0, none⟩)]
    (of_decide_eq_true (by with_unfolding_all rfl))
    (of_decide_eq_true (by with_unfolding_all rfl))).2.1

/-- Counterexample to C2 as stated: with `fuzzyTime = 10`, the candidate
at `t = 9` (score 18) and the candidate at `t = 21/2` (score 9/2) have
equal fitness, the code returns `t = 9` (the earlier cut), yet `21/2` is
strictly closer to the fuzzy time — so ties are *not* broken by smallest
distance. -/
theorem find_precise_boundary_tiebreak_counterexample :
    find_precise_boundary_core 10
      [(⟨0, none⟩, ⟨0, none⟩), (⟨9, some 18⟩, ⟨0, none⟩),
       (⟨21/2, some (9/2)⟩, ⟨0, none⟩)] = 9 ∧
    fitness 10 ⟨9, some 18⟩ = fitness 10 ⟨21/2, some (9/2)⟩ ∧
    |(21/2 : ℚ) - 10| < |(9 : ℚ) - 10| :=
  ⟨by with_unfolding_all rfl, by with_unfolding_all rfl,
   of_decide_eq_true (by with_unfolding_all rfl)⟩

/-- C6.  `find_precise_boundary` returns the fuzzy time unchanged when no
candidate cut exists, and whenever all candidate cuts lie within the
search window `[approx - radius, approx + radius]` (which the detector
guarantees by seeking to `max(0, approx - radius)` and stopping at
`approx + radius`), the returned timestamp lies within that window too. -/
theorem find_precise_boundary_window (fuzzyTime : ℚ) (sceneList : List (Cut × Cut)) :
    (cutsFromScenes sceneList = [] →
      find_precise_boundary_core fuzzyTime sceneList = fuzzyTime) ∧
    (cutsFromScenes sceneList ≠ [] →
      (∀ c ∈ cutsFromScenes sceneList, |c.seconds - fuzzyTime| ≤ SEARCH_RADIUS) →
      |find_precise_boundary_core fuzzyTime sceneList - fuzzyTime| ≤ SEARCH_RADIUS) := by
  constructor
  · intro h
    unfold find_precise_boundary_core
    rw [h]
  · intro hne hwin
    rcases find_precise_core_cases fuzzyTime sceneList with ⟨hnil, -⟩ | ⟨c, hc, heq⟩
    · exact absurd hnil hne
    · rw [heq]
      exact hwin c hc

/-- Witness for C6: a window-respecting candidate list keeps the result
in the window, and the empty candidate list returns the fuzzy time. -/
theorem find_precise_boundary_window_witness :
    |find_precise_boundary_core 7 [(⟨6, none⟩, ⟨0, none⟩), (⟨8, some 3⟩, ⟨0, none⟩)] - 7| ≤
      SEARCH_RADIUS ∧
    find_precise_boundary_core 7 [] = 7 := by
  constructor
  · exact (find_precise_boundary_window 7
      [(⟨6, none⟩, ⟨0, none⟩), (⟨8, some 3⟩, ⟨0, none⟩)]).2
      (of_decide_eq_true (by with_unfolding_all rfl))
      (of_decide_eq_true (by with_unfolding_all rfl))
  · exact (find_precise_boundary_window 7 []).1 rfl

/-- C9.  `find_precise_boundary` is total: a failed detection pass
(the `try/except` wrapper) returns the fuzzy input unchanged, and in
every case the result is either the fuzzy input itself or the timestamp
of one of the detector's candidate cuts. -/
theorem find_precise_boundary_total (fuzzyTime : ℚ)
    (detection : Except Unit (List (Cut × Cut))) :
    (∀ e, detection = Except.error e →
      find_precise_boundary fuzzyTime detection = fuzzyTime) ∧
    (find_precise_boundary fuzzyTime detection = fuzzyTime ∨
      ∃ sceneList, detection = Except.ok sceneList ∧
        ∃ c ∈ cutsFromScenes sceneList,
          find_precise_boundary fuzzyTime detection = c.seconds) := by
  cases detection with
  | error e =>
    exact ⟨fun _ _ => rfl, Or.inl rfl⟩
  | ok sceneList =>
    refine ⟨fun e he => Except.noConfusion he, ?_⟩
    rcases find_precise_core_cases fuzzyTime sceneList with ⟨-, heq⟩ | ⟨c, hc, heq⟩
    · exact Or.inl heq
    · exact Or.inr ⟨sceneList, rfl, c, hc, heq⟩

/-- Witness for C9: a failing detection falls back to the fuzzy time. -/
theorem find_precise_boundary_total_witness :
    find_precise_boundary 5 (Except.error ()) = 5 :=
  (find_precise_boundary_total 5 (Except.error ())).1 () rfl

/-! ### Helper lemmas: the consensus accumulation loop -/

lemma hcsFold_prefix (cuts : List SubCut) : ∀ (pre : List (ℚ × ℚ)) (cur : ℚ),
    cuts.foldl hcs_step (pre, cur) =
      (pre ++ (hcsFold cuts cur).1, (hcsFold cuts cur).2) := by
  induction cuts with
  | nil => intro pre cur; simp [hcsFold]
  | cons c cs ih =>
    intro pre cur
    by_cases h : cutAccepted c
    · rw [List.foldl_cons, show hcs_step (pre, cur) c =
          (pre ++ [(cur, c.seconds)], c.seconds) from by simp [hcs_step, h]]
      rw [ih (pre ++ [(cur, c.seconds)]) c.seconds]
      have hrhs : hcsFold (c :: cs) cur =
          ([(cur, c.seconds)] ++ (hcsFold cs c.seconds).1, (hcsFold cs c.seconds).2) := by
        unfold hcsFold
        rw [List.foldl_cons, show hcs_step ([], cur) c =
            ([(cur, c.seconds)], c.seconds) from by simp [hcs_step, h]]
        exact ih [(cur, c.seconds)] c.seconds
      rw [hrhs]
      simp
    · rw [List.foldl_cons, show hcs_step (pre, cur) c = (pre, cur) from by simp [hcs_step, h]]
      rw [ih pre cur]
      have hrhs : hcsFold (c :: cs) cur = hcsFold cs cur := by
        unfold hcsFold
        rw [List.foldl_cons, show hcs_step ([], cur) c = ([], cur) from by simp [hcs_step, h]]
      rw [hrhs]

/-- The accumulation loop is exactly the chain of consecutive ranges
between accepted cut times, with the running start ending at the last
accepted time (or the initial start when nothing was accepted). -/
lemma hcsFold_eq (cuts : List SubCut) : ∀ firstStart : ℚ,
    hcsFold cuts firstStart =
      (consecRanges firstStart ((cuts.filter (fun c => cutAccepted c)).map SubCut.seconds),
       ((cuts.filter (fun c => cutAccepted c)).map SubCut.seconds).getLastD firstStart) := by
  induction cuts with
  | nil => intro firstStart; rfl
  | cons c cs ih =>
    intro firstStart
    by_cases h : cutAccepted c
    · have hstep : hcsFold (c :: cs) firstStart =
          ([(firstStart, c.seconds)] ++ (hcsFold cs c.seconds).1,
           (hcsFold cs c.seconds).2) := by
        unfold hcsFold
        rw [List.foldl_cons, show hcs_step ([], firstStart) c =
            ([(firstStart, c.seconds)], c.seconds) from by simp [hcs_step, h]]
        exact hcsFold_prefix cs [(firstStart, c.seconds)] c.seconds
      rw [hstep, ih c.seconds]
      simp only [List.filter_cons_of_pos (by simpa using h), List.map_cons]
      rw [List.getLastD_cons]
      rfl
    · have hstep : hcsFold (c :: cs) firstStart = hcsFold cs firstStart := by
        unfold hcsFold
        rw [List.foldl_cons, show hcs_step ([], firstStart) c =
            ([], firstStart) from by simp [hcs_step, h]]
      rw [hstep, ih firstStart]
      simp only [List.filter_cons_of_neg (by simpa using h)]

/-- C3.  A candidate cut is accepted iff its metrics exist and
`(adaptive ≥ 7 ∧ hash ≥ 0.4) ∨ adaptive ≥ 13` (missing individual values
read as 0); a cut with no metrics is rejected, never an error; the loop's
output ranges are exactly the chain between consecutive accepted cuts;
and the two spec scenarios follow: a single cut with `adaptive = 6`,
`hash = 0.9` yields the empty result, and a single cut with
`adaptive = 14`, `hash = 0.1` yields exactly two ranges split at that
cut. -/
theorem consensus_acceptance_rule :
    (∀ c : SubCut, cutAccepted c = true ↔
      ∃ ma mh, c.metrics = some (ma, mh) ∧
        ((ADAPTIVE_THRESHOLD ≤ ma.getD 0 ∧ HASH_THRESHOLD ≤ mh.getD 0) ∨
          SCREAMER_ADAPTIVE_THRESHOLD ≤ ma.getD 0)) ∧
    (∀ c : SubCut, c.metrics = none → cutAccepted c = false) ∧
    (∀ (cuts : List SubCut) (firstStart : ℚ),
      (hcsFold cuts firstStart).1 =
        consecRanges firstStart
          ((cuts.filter (fun c => cutAccepted c)).map SubCut.seconds)) ∧
    detect_high_confidence_subscenes
      [(⟨0, none⟩, ⟨5, some (some 6, some (9/10))⟩),
       (⟨5, some (some 6, some (9/10))⟩, ⟨12, none⟩)] 12 = [] ∧
    detect_high_confidence_subscenes
      [(⟨0, none⟩, ⟨5, some (some 14, some (1/10))⟩),
       (⟨5, some (some 14, some (1/10))⟩, ⟨12, none⟩)] 12 = [(0, 5), (5, 12)] := by
  refine ⟨?_, ?_, ?_, by with_unfolding_all rfl, by with_unfolding_all rfl⟩
  · intro c
    constructor
    · intro hacc
      unfold cutAccepted at hacc
      cases hm : c.metrics with
      | none => rw [hm] at hacc; cases hacc
      | some p =>
        obtain ⟨ma, mh⟩ := p
        rw [hm] at hacc
        simp only [decide_eq_true_eq] at hacc
        exact ⟨ma, mh, rfl, hacc⟩
    · rintro ⟨ma, mh, hm, hcond⟩
      unfold cutAccepted
      rw [hm]
      simpa using hcond
  · intro c hm
    unfold cutAccepted
    rw [hm]
  · intro cuts firstStart
    rw [hcsFold_eq cuts firstStart]

/-- Witness for C3: a cut with missing metrics is rejected. -/
theorem consensus_acceptance_rule_witness :
    cutAccepted ⟨3, none⟩ = false :=
  consensus_acceptance_rule.2.1 ⟨3, none⟩ rfl

/-- C5.  When the dual-detector pass produces at most one raw scene —
i.e. fewer than two raw scene-boundary points to examine —
`detect_high_confidence_subscenes` returns the empty list. -/
theorem subscenes_empty_of_few_cuts (rawScenes : List (SubCut × SubCut)) (endTime : ℚ)
    (hlen : rawScenes.length ≤ 1) :
    detect_high_confidence_subscenes rawScenes endTime = [] := by
  match rawScenes with
  | [] => rfl
  | [_] => rfl
  | s0 :: s1 :: rest => simp at hlen

/-- Witness for C5 at the empty raw-scene list. -/
theorem subscenes_empty_of_few_cuts_witness :
    detect_high_confidence_subscenes [] 0 = [] :=
  subscenes_empty_of_few_cuts [] 0 (by simp)

/-- C4 (amended).  The returned ranges are the detector's scene list with
every range shorter than `max(0, minSceneSeconds)` removed: when no
detected range is that short (and the detection is non-empty), the output
is the scene list itself, so a contiguous detection spanning
`[0, lastTimestamp]` stays contiguous; a dropped short range, however,
leaves a gap (see the counterexample). -/
theorem detect_scenes_contiguous_of_no_short (sceneList : List (ℚ × ℚ)) (d : Option ℚ)
    (m L : ℚ) (hne : sceneList ≠ [])
    (hlong : ∀ r ∈ sceneList, max 0 m ≤ r.2 - r.1) :
    detect_scenes_seconds sceneList d m = sceneList ∧
    (contiguousFrom 0 sceneList L = true →
      contiguousFrom 0 (detect_scenes_seconds sceneList d m) L = true) := by
  have hfilter : sceneList.filter (fun r => max 0 m ≤ r.2 - r.1) = sceneList :=
    List.filter_eq_self.mpr (fun r hr => by simpa using hlong r hr)
  have heq : detect_scenes_seconds sceneList d m = sceneList := by
    unfold detect_scenes_seconds
    rw [if_neg hne]
    dsimp only
    rw [hfilter, if_neg hne]
  exact ⟨heq, fun hc => by rw [heq]; exact hc⟩

/-- Witness for C4's amended statement: a contiguous scene list with no
short range passes through unchanged and stays contiguous. -/
theorem detect_scenes_contiguous_witness :
    detect_scenes_seconds [((0:ℚ), (2:ℚ)), (2, 5)] (some 5) 1 = [(0, 2), (2, 5)] ∧
    contiguousFrom 0 (detect_scenes_seconds [((0:ℚ), (2:ℚ)), (2, 5)] (some 5) 1) 5 = true :=
  have h := detect_scenes_contiguous_of_no_short [((0:ℚ), (2:ℚ)), (2, 5)] (some 5) 1 5
    (by simp) (of_decide_eq_true (by with_unfolding_all rfl))
  ⟨h.1, h.2 (of_decide_eq_true (by with_unfolding_all rfl))⟩

/-- Counterexample to C4 as stated: the detector's contiguous scene list
`[(0,1), (1, 6/5), (6/5, 5)]` spans `[0, 5]`, but with
`minSceneSeconds = 1/2` the middle range (duration 1/5) is dropped, and
the returned `[(0,1), (6/5, 5)]` has a gap between 1 and 6/5 — the
concatenation no longer spans `[0, 5]`. -/
theorem detect_scenes_gap_counterexample :
    contiguousFrom 0 [((0:ℚ), (1:ℚ)), (1, 6/5), (6/5, 5)] 5 = true ∧
    detect_scenes_seconds [((0:ℚ), (1:ℚ)), (1, 6/5), (6/5, 5)] (some 5) (1/2) =
      [(0, 1), (6/5, 5)] ∧
    contiguousFrom 0
      (detect_scenes_seconds [((0:ℚ), (1:ℚ)), (1, 6/5), (6/5, 5)] (some 5) (1/2)) 5 = false :=
  ⟨by with_unfolding_all rfl, by with_unfolding_all rfl, by with_unfolding_all rfl⟩

/-- C10.  `detect_scenes_seconds` always returns a non-empty list: an
empty detection, or a detection whose ranges are all shorter than the
minimum, yields the single fallback range `(0, duration)`, which is the
degenerate `(0, 0)` when the duration probe fails. -/
theorem detect_scenes_seconds_fallback (sceneList : List (ℚ × ℚ)) (d : Option ℚ) (m : ℚ) :
    detect_scenes_seconds sceneList d m ≠ [] ∧
    ((sceneList = [] ∨ sceneList.filter (fun r => max 0 m ≤ r.2 - r.1) = []) →
      detect_scenes_seconds sceneList d m = [(0, d.getD 0)]) ∧
    (d = none → (sceneList = [] ∨ sceneList.filter (fun r => max 0 m ≤ r.2 - r.1) = []) →
      detect_scenes_seconds sceneList d m = [(0, 0)]) := by
  unfold detect_scenes_seconds
  by_cases h1 : sceneList = []
  · rw [if_pos h1]
    exact ⟨by simp, fun _ => rfl, fun hd _ => by rw [hd]; rfl⟩
  · rw [if_neg h1]
    dsimp only
    by_cases h2 : sceneList.filter (fun r => max 0 m ≤ r.2 - r.1) = []
    · rw [if_pos h2]
      exact ⟨by simp, fun _ => rfl, fun hd _ => by rw [hd]; rfl⟩
    · rw [if_neg h2]
      refine ⟨h2, ?_, ?_⟩
      · intro hor
        rcases hor with h | h
        · exact absurd h h1
        · exact absurd h h2
      · intro _ hor
        rcases hor with h | h
        · exact absurd h h1
        · exact absurd h h2

/-- Witness for C10: the empty detection with no probed duration yields
the degenerate fallback range. -/
theorem detect_scenes_seconds_fallback_witness :
    detect_scenes_seconds ([] : List (ℚ × ℚ)) none 1 ≠ [] ∧
    detect_scenes_seconds ([] : List (ℚ × ℚ)) none 1 = [(0, 0)] :=
  have h := detect_scenes_seconds_fallback [] none 1
  ⟨h.1, h.2.2 rfl (Or.inl rfl)⟩

/-- C8 (amended).  Precise clip export fails fast exactly when
`endSeconds ≤ startSeconds`; threshold selection, by contrast, does not
fail on a missing or non-positive probed frame rate — it silently
substitutes the default 30 fps. -/
theorem export_guard_fail_fast (startSeconds endSeconds f : ℚ) :
    (ffmpeg_export_clip_precise_guard startSeconds endSeconds = Except.ok () ↔
      startSeconds < endSeconds) ∧
    (f ≤ 0 → resolve_fps (some f) = 30) ∧
    resolve_fps none = 30 := by
  refine ⟨?_, ?_, rfl⟩
  · unfold ffmpeg_export_clip_precise_guard
    by_cases h : endSeconds ≤ startSeconds
    · rw [if_pos h]
      constructor
      · intro hc; cases hc
      · intro hlt; linarith
    · rw [if_neg h]
      exact ⟨fun _ => lt_of_not_le h, fun _ => rfl⟩
  · intro hf
    simp [resolve_fps, hf]

/-- Witness for C8's amended statement. -/
theorem export_guard_fail_fast_witness :
    resolve_fps (some (-1)) = 30 ∧
    ffmpeg_export_clip_precise_guard 1 2 = Except.ok () :=
  ⟨(export_guard_fail_fast 1 2 (-1)).2.1 (by norm_num),
   (export_guard_fail_fast 1 2 (-1)).1.mpr (by norm_num)⟩

/-- Counterexample to C8 as stated: a probed frame rate of 0 (or any
non-positive value) does not make threshold selection fail — the rate is
silently replaced by 30 and selection returns an ordinary threshold
(here 123/25 on the series `[1,2,3,4,5]`). -/
theorem fps_silent_default_counterexample :
    resolve_fps (some 0) = 30 ∧ resolve_fps (some (-5)) = 30 ∧
    auto_choose_threshold_for_video (some 0) [1, 2, 3, 4, 5] 0 = 123/25 ∧
    auto_choose_threshold_for_video (some 0) [1, 2, 3, 4, 5] 0 =
      choose_threshold_from_content_vals [1, 2, 3, 4, 5] 30 0 :=
  ⟨rfl, rfl, by with_unfolding_all rfl, rfl⟩

end ClipVideo
